import Mathlib

/-!
Verification of the network core of the `access-irc` chat client.

The development shallowly embeds the protocol-level components of the
repository:

* `src/access_irc/irc_manager.py` — `IRCConnection`: outbound message
  chunking (`_split_message`, `_calculate_max_message_length`), nickname
  negotiation (`_next_alternate_nick`, `_handle_nick_error`), and the
  per-channel user roster (`add_user_to_channel`, `_remove_user_variants`,
  `rename_user`, `_update_user_prefix`, `_parse_mode_changes`,
  `_apply_mode_changes`).
* `src/access_irc/dcc_manager.py` — `DCCManager`: DCC offer parsing
  (`parse_dcc_ctcp`), filename sanitisation (`_sanitize_filename`),
  transfer cancellation (`cancel_transfer`), and the byte-accounting loop
  shared by `_receive_file_thread` and `_send_file_thread`.

Python strings are modelled as lists of Unicode scalar values
(`List Char`); byte lengths are computed with `Char.utf8Size`, which is
exactly the number of bytes `str.encode('utf-8')` produces per code
point.  Mutation is modelled by explicit state passing; socket and
filesystem effects are abstracted as parameters where the code consumes
them.
-/

set_option maxRecDepth 10000

/-- Python strings, modelled as lists of Unicode scalar values. -/
abbrev Str := List Char

/-- Coerce a Lean string literal into the model type. -/
def str (s : String) : Str := s.data

/-- Byte length of the UTF-8 encoding of a string: Python
`len(s.encode('utf-8'))`. -/
def utf8Len (s : Str) : Nat := (s.map Char.utf8Size).sum

/-- Every UTF-8 code point occupies at most four bytes. -/
theorem utf8Size_le_four (c : Char) : c.utf8Size ≤ 4 := by
  unfold Char.utf8Size
  simp only []
  split <;> [skip; split <;> [skip; split]] <;> omega

/-- The set of characters Python's `str.strip()` / `str.lstrip()` /
`str.split()` treat as whitespace (`str.isspace`). -/
def isPySpace (c : Char) : Bool :=
  [9, 10, 11, 12, 13, 28, 29, 30, 31, 32, 0x85, 0xA0, 0x1680,
   0x2028, 0x2029, 0x202F, 0x205F, 0x3000].contains c.toNat
  || (0x2000 ≤ c.toNat && c.toNat ≤ 0x200A)

/-- Python `s.lstrip()` with no argument: drop leading whitespace. -/
def pyLstrip (s : Str) : Str := s.dropWhile isPySpace

/-- Python `s.strip()` with no argument: drop leading and trailing
whitespace. -/
def pyStrip (s : Str) : Str :=
  ((s.dropWhile isPySpace).reverse.dropWhile isPySpace).reverse

/-- The longest prefix of `s` whose UTF-8 encoding fits in `n` bytes.

This is what the byte-slice-and-back-up step of
`IRCConnection._split_message` computes: the code slices
`remaining.encode('utf-8')[:max_length]` and, on a `UnicodeDecodeError`,
decrements the slice point until the bytes decode — i.e. until the cut
lands on the largest code-point boundary not exceeding `max_length`.
(The `remaining[:max_length // 4]` fallback in the source is dead code:
slicing zero bytes always decodes.) -/
def takeUtf8 : Nat → Str → Str
  | _, [] => []
  | n, c :: cs => if c.utf8Size ≤ n then c :: takeUtf8 (n - c.utf8Size) cs else []

/-- Python `s.rfind(' ')`: the index of the last space character, or
`none` when there is no space (Python returns `-1`; the sole use site
compares the result with a non-negative number, so `none` behaves like
`-1` there). -/
def rfindSpace : Str → Option Nat
  | [] => none
  | c :: cs =>
    match rfindSpace cs with
    | some i => some (i + 1)
    | none => if c = ' ' then some 0 else none

/-- One iteration of the chunk-selection logic of
`IRCConnection._split_message`: take the longest UTF-8 prefix fitting
the byte budget, then back up to the last space when that space lies in
the second half of the budget (`last_space > max_length // 2`). -/
def chunkOf (remaining : Str) (maxLength : Nat) : Str :=
  let chunk := takeUtf8 maxLength remaining
  match rfindSpace chunk with
  | some i => if maxLength / 2 < i then chunk.take i else chunk
  | none => chunk

/-- The `while remaining:` loop of `IRCConnection._split_message`,
with explicit fuel; `none` means the fuel ran out (the Python loop does
not terminate for every argument, see the claim about termination). -/
def splitLoop : Nat → Str → Nat → Option (List Str)
  | 0, _, _ => none
  | fuel + 1, remaining, maxLength =>
    if remaining = [] then some []
    else if utf8Len remaining ≤ maxLength then some [remaining]
    else
      let chunk := chunkOf remaining maxLength
      match splitLoop fuel (pyLstrip (remaining.drop chunk.length)) maxLength with
      | some rest => some (chunk :: rest)
      | none => none

/-- `IRCConnection._split_message(message, max_length)` for a
non-negative byte budget.  A message already within the byte budget is
returned unchanged as a single-element list; otherwise the splitting
loop runs (with enough fuel for every terminating execution: each
productive iteration strictly shortens `remaining`).  The budget is a
Python `int` and can be negative; `split_message_py` below models that
general case (negative slicing included) and agrees with this
specialisation on ℕ (`split_message_py_ofNat`). -/
def split_message (message : Str) (maxLength : Nat) : Option (List Str) :=
  if utf8Len message ≤ maxLength then some [message]
  else splitLoop (message.length + 1) message maxLength

/-- `IRCConnection.IRC_MAX_LINE`. -/
def IRC_MAX_LINE : Int := 512

/-- `IRCConnection.IRC_HOSTMASK_BUFFER`. -/
def IRC_HOSTMASK_BUFFER : Int := 100

/-- `IRCConnection._calculate_max_message_length(target, extra_overhead)`:
`IRC_MAX_LINE` minus the PRIVMSG framing overhead.  Python `int` is
unbounded and the result can be zero or negative for very long targets,
so the result type is `Int`. -/
def calculate_max_message_length (target : Str) (extra_overhead : Int) : Int :=
  IRC_MAX_LINE - (8 + (utf8Len target : Int) + 2 + 2 + IRC_HOSTMASK_BUFFER + extra_overhead)

example : split_message (str "hello") 10 = some [str "hello"] := by decide

example : split_message (str "aaaa  bb") 5 = some [str "aaaa", str "bb"] := by decide

example : calculate_max_message_length (str "#chan") 0 = 395 := by decide

/-- A contiguous character-aligned segment: `c` occurs in `M` as a run of
whole code points (so no chunk boundary can fall inside one). -/
def SubSeg (c M : Str) : Prop := ∃ pre post, M = pre ++ (c ++ post)

theorem utf8Len_append (a b : Str) : utf8Len (a ++ b) = utf8Len a + utf8Len b := by
  simp [utf8Len]

theorem utf8Len_takeUtf8_le (n : Nat) (s : Str) : utf8Len (takeUtf8 n s) ≤ n := by
  induction s generalizing n with
  | nil => simp [takeUtf8, utf8Len]
  | cons c cs ih =>
    simp only [takeUtf8]
    split
    · rename_i h
      have := ih (n - c.utf8Size)
      simp only [utf8Len, List.map_cons, List.sum_cons] at *
      omega
    · simp [utf8Len]

theorem takeUtf8_pre (n : Nat) (s : Str) : ∃ t, takeUtf8 n s ++ t = s := by
  induction s generalizing n with
  | nil => exact ⟨[], rfl⟩
  | cons c cs ih =>
    simp only [takeUtf8]
    split
    · obtain ⟨t, ht⟩ := ih (n - c.utf8Size)
      exact ⟨t, by simp [ht]⟩
    · exact ⟨c :: cs, rfl⟩

theorem utf8Len_take_le (i : Nat) (l : Str) : utf8Len (l.take i) ≤ utf8Len l := by
  conv_rhs => rw [← List.take_append_drop i l]
  rw [utf8Len_append]
  omega

theorem utf8Len_chunkOf_le (r : Str) (L : Nat) : utf8Len (chunkOf r L) ≤ L := by
  have hbase := utf8Len_takeUtf8_le L r
  unfold chunkOf
  cases hfind : rfindSpace (takeUtf8 L r) with
  | none => simpa [hfind] using hbase
  | some i =>
    simp only [hfind]
    split
    · exact le_trans (utf8Len_take_le i _) hbase
    · exact hbase

theorem chunkOf_pre (r : Str) (L : Nat) : ∃ t, chunkOf r L ++ t = r := by
  obtain ⟨t, ht⟩ := takeUtf8_pre L r
  unfold chunkOf
  cases hfind : rfindSpace (takeUtf8 L r) with
  | none => simpa [hfind] using ⟨t, ht⟩
  | some i =>
    simp only [hfind]
    split
    · refine ⟨(takeUtf8 L r).drop i ++ t, ?_⟩
      rw [← List.append_assoc, List.take_append_drop, ht]
    · exact ⟨t, ht⟩

theorem chunkOf_ne_nil (r : Str) (L : Nat) (hL : 4 ≤ L) (hr : ¬ utf8Len r ≤ L) :
    chunkOf r L ≠ [] := by
  cases r with
  | nil => exact absurd (by simp [utf8Len]) hr
  | cons c cs =>
    have hc : c.utf8Size ≤ L := le_trans (utf8Size_le_four c) hL
    unfold chunkOf
    simp only [takeUtf8, if_pos hc]
    cases hfind : rfindSpace (c :: takeUtf8 (L - c.utf8Size) cs) with
    | none => simp [hfind]
    | some i =>
      simp only [hfind]
      split
      · rename_i hi
        cases i with
        | zero => omega
        | succ j => simp
      · simp

theorem length_pyLstrip_le (s : Str) : (pyLstrip s).length ≤ s.length := by
  have h := congrArg List.length (List.takeWhile_append_dropWhile (p := isPySpace) (l := s))
  simp only [List.length_append] at h
  unfold pyLstrip
  omega

theorem splitLoop_isSome (L : Nat) (hL : 4 ≤ L) :
    ∀ fuel r, r.length < fuel → (splitLoop fuel r L).isSome := by
  intro fuel
  induction fuel with
  | zero => intro r h; omega
  | succ n ih =>
    intro r hr
    by_cases hnil : r = []
    · simp [splitLoop, hnil]
    by_cases hle : utf8Len r ≤ L
    · simp [splitLoop, hnil, hle]
    · have hchunk := chunkOf_ne_nil r L hL hle
      have h1 : 0 < (chunkOf r L).length := List.length_pos.mpr hchunk
      have hrpos : 0 < r.length := List.length_pos.mpr hnil
      have h2 : (pyLstrip (r.drop (chunkOf r L).length)).length < n := by
        have ha := length_pyLstrip_le (r.drop (chunkOf r L).length)
        have hb : (r.drop (chunkOf r L).length).length = r.length - (chunkOf r L).length :=
          List.length_drop _ _
        omega
      have h3 := ih _ h2
      simp only [splitLoop, if_neg hnil, if_neg hle]
      cases hres : splitLoop n (pyLstrip (r.drop (chunkOf r L).length)) L with
      | none => rw [hres] at h3; simp at h3
      | some rest => simp

theorem drop_of_append {a t : Str} (h : a ++ t = r) : r.drop a.length = t := by
  subst h
  simp

theorem splitLoop_sound (L : Nat) :
    ∀ fuel r cs, splitLoop fuel r L = some cs →
      ∀ c ∈ cs, utf8Len c ≤ L ∧ SubSeg c r := by
  intro fuel
  induction fuel with
  | zero => intro r cs h; simp [splitLoop] at h
  | succ n ih =>
    intro r cs h c hc
    rw [splitLoop] at h
    by_cases hnil : r = []
    · rw [if_pos hnil] at h
      injection h with h
      subst h
      simp at hc
    rw [if_neg hnil] at h
    by_cases hle : utf8Len r ≤ L
    · rw [if_pos hle] at h
      injection h with h
      subst h
      simp at hc
      subst hc
      exact ⟨hle, [], [], by simp⟩
    rw [if_neg hle] at h
    simp only at h
    cases hres : splitLoop n (pyLstrip (r.drop (chunkOf r L).length)) L with
    | none => rw [hres] at h; exact absurd h (by simp)
    | some rest =>
      rw [hres] at h
      injection h with h
      subst h
      obtain ⟨t, ht⟩ := chunkOf_pre r L
      rcases List.mem_cons.mp hc with hc | hc
      · subst hc
        exact ⟨utf8Len_chunkOf_le r L, [], t, by simp [ht]⟩
      · obtain ⟨hlen, pre, post, hdec⟩ := ih _ _ hres c hc
        unfold pyLstrip at hdec
        have hdrop : r.drop (chunkOf r L).length = t := drop_of_append ht
        have ht' : chunkOf r L ++ r.drop (chunkOf r L).length = r := by
          rw [hdrop]; exact ht
        have hEq : chunkOf r L ++ (List.takeWhile isPySpace (r.drop (chunkOf r L).length) ++
            (pre ++ (c ++ post))) = r := by
          rw [← hdec, List.takeWhile_append_dropWhile]
          exact ht'
        refine ⟨hlen, chunkOf r L ++ List.takeWhile isPySpace (r.drop (chunkOf r L).length) ++ pre,
          post, ?_⟩
        conv_lhs => rw [← hEq]
        simp [List.append_assoc]

/-- Decomposition of an input into the chunks `_split_message` produced:
the input is the chunks in order, with a (possibly empty) run of
whitespace characters re-inserted at each split point and nothing else
dropped or altered. -/
inductive Interleaves : Str → List Str → Prop
  | nil : Interleaves [] []
  | cons (c ws rest : Str) (cs : List Str) : (∀ x ∈ ws, isPySpace x = true) →
      Interleaves rest cs → Interleaves (c ++ (ws ++ rest)) (c :: cs)

theorem interleaves_single (r : Str) : Interleaves r [r] := by
  have h := Interleaves.cons r [] [] [] (by simp) Interleaves.nil
  simpa using h

theorem splitLoop_interleaves (L : Nat) :
    ∀ fuel r cs, splitLoop fuel r L = some cs → Interleaves r cs := by
  intro fuel
  induction fuel with
  | zero => intro r cs h; simp [splitLoop] at h
  | succ n ih =>
    intro r cs h
    rw [splitLoop] at h
    by_cases hnil : r = []
    · rw [if_pos hnil] at h
      injection h with h
      subst h
      subst hnil
      exact Interleaves.nil
    rw [if_neg hnil] at h
    by_cases hle : utf8Len r ≤ L
    · rw [if_pos hle] at h
      injection h with h
      subst h
      exact interleaves_single r
    rw [if_neg hle] at h
    simp only at h
    cases hres : splitLoop n (pyLstrip (r.drop (chunkOf r L).length)) L with
    | none => rw [hres] at h; exact absurd h (by simp)
    | some rest =>
      rw [hres] at h
      injection h with h
      subst h
      obtain ⟨t, ht⟩ := chunkOf_pre r L
      have hdrop : r.drop (chunkOf r L).length = t := drop_of_append ht
      have ht' : chunkOf r L ++ r.drop (chunkOf r L).length = r := by
        rw [hdrop]; exact ht
      have hws : ∀ x ∈ List.takeWhile isPySpace (r.drop (chunkOf r L).length),
          isPySpace x = true := fun x hx => List.mem_takeWhile_imp hx
      have hform : chunkOf r L ++
          (List.takeWhile isPySpace (r.drop (chunkOf r L).length) ++
           pyLstrip (r.drop (chunkOf r L).length)) = r := by
        unfold pyLstrip
        rw [List.takeWhile_append_dropWhile]
        exact ht'
      have hI := Interleaves.cons (chunkOf r L)
        (List.takeWhile isPySpace (r.drop (chunkOf r L).length))
        (pyLstrip (r.drop (chunkOf r L).length)) rest hws (ih _ _ hres)
      rw [hform] at hI
      exact hI

/-- C2 fails on the code as stated: `_split_message` strips an arbitrary
run of whitespace at each split point (`lstrip`), not at most a single
space.  For `M = "aaaa  bb"` (two spaces) and budget 5 the chunks are
`["aaaa", "bb"]`, and neither plain concatenation nor re-inserting one
single space reproduces `M`: two characters of `M` collapsed at the
split point. -/
theorem C2_counterexample :
    split_message (str "aaaa  bb") 5 = some [str "aaaa", str "bb"]
    ∧ str "aaaa" ++ str "bb" ≠ str "aaaa  bb"
    ∧ str "aaaa" ++ ([' '] ++ str "bb") ≠ str "aaaa  bb" := by
  refine ⟨by decide, by decide, by decide⟩

/-- C2 amended: concatenating the chunks, re-inserting at each split
point the (possibly multi-character) run of whitespace that was stripped
there, reproduces `M` exactly — so no non-whitespace character of `M` is
dropped or altered, but a continuation chunk may lose more than a single
leading space. -/
theorem C2_join_up_to_whitespace (M : Str) (L : Nat) (cs : List Str)
    (h : split_message M L = some cs) : Interleaves M cs := by
  unfold split_message at h
  by_cases hle : utf8Len M ≤ L
  · rw [if_pos hle] at h
    injection h with h
    subst h
    exact interleaves_single M
  · rw [if_neg hle] at h
    exact splitLoop_interleaves L _ M cs h

theorem C2_join_up_to_whitespace_witness :
    Interleaves (str "aaaa  bb") [str "aaaa", str "bb"] :=
  C2_join_up_to_whitespace (str "aaaa  bb") 5 [str "aaaa", str "bb"] (by decide)

theorem splitLoop_stuck (r : Str) (L : Nat) (hnil : r ≠ [])
    (hle : ¬ utf8Len r ≤ L)
    (hfix : pyLstrip (r.drop (chunkOf r L).length) = r) :
    ∀ fuel, splitLoop fuel r L = none := by
  intro fuel
  induction fuel with
  | zero => rfl
  | succ n ih =>
    rw [splitLoop, if_neg hnil, if_neg hle]
    simp only [hfix, ih]

/-- C9: with a byte budget of at least 4 (the maximum width of a UTF-8
code point) every loop iteration of `_split_message` yields a non-empty
chunk, the remaining text strictly shrinks, and the function terminates
(the fuel `M.length + 1` never runs out).  The precondition is
load-bearing: `_calculate_max_message_length` returns `512 − overhead`,
which is zero for a 400-byte target (and negative beyond), and with a
budget of 0 the loop never terminates — on input `"ab"` it returns the
out-of-fuel marker for every fuel value. -/
theorem C9_termination_needs_positive_budget :
    (∀ (M : Str) (L : Nat), 4 ≤ L → (split_message M L).isSome)
    ∧ calculate_max_message_length (List.replicate 400 'a') 0 ≤ 0
    ∧ (∀ fuel, splitLoop fuel (str "ab") 0 = none) := by
  refine ⟨?_, by decide, ?_⟩
  · intro M L hL
    unfold split_message
    by_cases hle : utf8Len M ≤ L
    · rw [if_pos hle]; rfl
    · rw [if_neg hle]
      exact splitLoop_isSome L hL (M.length + 1) M (by omega)
  · exact splitLoop_stuck (str "ab") 0 (by decide) (by decide) (by decide)

theorem C9_termination_needs_positive_budget_witness :
    (split_message (str "abcdefgh") 4).isSome :=
  C9_termination_needs_positive_budget.1 (str "abcdefgh") 4 (by omega)

/-- Python `s.lower()`, restricted to the ASCII case mapping used by
nickname comparison (`Char.toLower` agrees with Python on ASCII). -/
def pyLower (s : Str) : Str := s.map Char.toLower

/-- Join a list of strings with single spaces: Python `" ".join(parts)`. -/
def joinSpace : List Str → Str
  | [] => []
  | [p] => p
  | p :: ps => p ++ (' ' :: joinSpace ps)

/-- The nickname-negotiation slice of `IRCConnection` state: current
nickname, the alternates list with its cursor, whether the 001 welcome
arrived (`connected`), and whether a connection object exists (`irc`).
The wire socket and callback plumbing are external effects and are
not part of the state. -/
structure SessionNick where
  nickname : Str
  alternate_nicks : List Str
  alternate_nick_index : Nat
  connected : Bool
  irc : Bool
deriving DecidableEq, Repr

/-- The `while` loop of `IRCConnection._next_alternate_nick`, walking the
alternates from the cursor; the fuel `alts.length` suffices because the
cursor grows by one per iteration and the loop stops once it passes the
end of the list. -/
def nextAltGo (alts : List Str) (nickname : Str) : Nat → Nat → Option Str × Nat
  | idx, 0 => (none, idx)
  | idx, fuel + 1 =>
    match alts[idx]? with
    | none => (none, idx)
    | some candidate =>
      if candidate ≠ [] ∧ pyLower candidate ≠ pyLower nickname then (some candidate, idx + 1)
      else nextAltGo alts nickname (idx + 1) fuel

/-- `IRCConnection._next_alternate_nick`: return the next alternate nick
to try, if any, advancing the cursor past every candidate inspected. -/
def next_alternate_nick (s : SessionNick) : Option Str × SessionNick :=
  let (res, idx) := nextAltGo s.alternate_nicks s.nickname s.alternate_nick_index
    s.alternate_nicks.length
  (res, { s with alternate_nick_index := idx })

/-- `IRCConnection._handle_nick_error(code, args)`: retry alternate
nicknames while unregistered.  Returns the updated state together with
the server message reported to the caller (`none` when the handler
returns early).  The `irc.quote("NICK …")` send and the bouncer-specific
`_current_nick` bookkeeping are external effects; the exception path of
`quote` (which would null `next_nick` after the nickname was already
reassigned) is not modelled. -/
def handle_nick_error (s : SessionNick) (code : Str) (args : List Str) :
    SessionNick × Option Str :=
  let auto_retry := !s.connected
  if auto_retry = true ∧ s.alternate_nicks = [] ∧ (code = str "432" ∨ code = str "433") then
    (s, none)
  else
    let attempted :=
      match args[1]? with
      | some a => if a = [] then s.nickname else a
      | none => s.nickname
    let reason := if 2 < args.length then pyStrip (joinSpace (args.drop 2)) else []
    let (next0, s1) := if auto_retry then next_alternate_nick s else (none, s)
    let (next_nick, s2) :=
      match next0 with
      | some nk => (some nk, if s1.irc then { s1 with nickname := nk } else s1)
      | none => (none, s1)
    let msg1 := str "Nickname " ++ attempted ++ str " is unavailable."
    let msg2 :=
      match next_nick with
      | some nk => msg1 ++ str " Trying " ++ nk ++ str "."
      | none =>
        let m :=
          if auto_retry then
            if s.alternate_nicks ≠ [] then msg1 ++ str " No alternative nicknames left."
            else msg1 ++ str " No alternative nicknames configured."
          else msg1
        m ++ str " Use /nick to choose another."
    let msgF := if reason ≠ [] then msg2 ++ str " Reason: " ++ reason else msg2
    (s2, some msgF)

/-- Initial negotiation state for the concrete scenario of the claim:
primary nickname with alternates `[Alt1, Alt2]`, unregistered, with a
live connection object. -/
def nickScenario0 : SessionNick :=
  { nickname := str "Primary", alternate_nicks := [str "Alt1", str "Alt2"],
    alternate_nick_index := 0, connected := false, irc := true }

def nickScenario1 : SessionNick × Option Str :=
  handle_nick_error nickScenario0 (str "433") [str "*", str "Primary"]

def nickScenario2 : SessionNick × Option Str :=
  handle_nick_error nickScenario1.1 (str "433") [str "*", str "Alt1"]

def nickScenario3 : SessionNick × Option Str :=
  handle_nick_error nickScenario2.1 (str "433") [str "*", str "Alt2"]

/-- C3: while unregistered, each rejection advances the alternates cursor
and adopts the next alternate, so the attempted-nickname sequence is
Primary, Alt1, Alt2; a third rejection leaves the nickname unchanged and
reports exhaustion ("No alternative nicknames left"); and a rejection
received after registration (`connected = true`) leaves the whole
negotiation state — in particular the nickname — unchanged. -/
theorem C3_nick_negotiation :
    (nickScenario1.1.nickname = str "Alt1" ∧ nickScenario1.1.alternate_nick_index = 1 ∧
     nickScenario1.2 = some (str "Nickname Primary is unavailable. Trying Alt1."))
    ∧ (nickScenario2.1.nickname = str "Alt2" ∧ nickScenario2.1.alternate_nick_index = 2 ∧
       nickScenario2.2 = some (str "Nickname Alt1 is unavailable. Trying Alt2."))
    ∧ (nickScenario3.1.nickname = str "Alt2" ∧
       nickScenario3.2 = some (str "Nickname Alt2 is unavailable. No alternative nicknames left. Use /nick to choose another."))
    ∧ (∀ (s : SessionNick) (code : Str) (args : List Str),
        s.connected = true → (handle_nick_error s code args).1 = s) := by
  refine ⟨by decide, by decide, by decide, ?_⟩
  intro s code args hconn
  unfold handle_nick_error
  simp only [hconn]
  simp

theorem C3_nick_negotiation_witness :
    (handle_nick_error { nickScenario0 with connected := true } (str "433")
      [str "*", str "Primary"]).1 = { nickScenario0 with connected := true } :=
  C3_nick_negotiation.2.2.2 { nickScenario0 with connected := true }
    (str "433") [str "*", str "Primary"] rfl

/-- `IRCConnection.PREFIX_CHARS`: the recognised privilege markers
(membership test `c in PREFIX_CHARS` as a boolean predicate). -/
def isMarkerChar (c : Char) : Bool :=
  c = '~' || c = '&' || c = '@' || c = '%' || c = '+'

/-- `IRCConnection.PREFIX_RANK.get(p, 0)` for a (string) key: ranks the
five single-character markers, everything else ranks 0. -/
def prefixRank (p : Str) : Nat :=
  if p = ['~'] then 5
  else if p = ['&'] then 4
  else if p = ['@'] then 3
  else if p = ['%'] then 2
  else if p = ['+'] then 1
  else 0

/-- `IRCConnection.USER_MODE_PREFIXES.get(mode)`: privilege mode letter
to marker. -/
def USER_MODE_PREFIXES (m : Char) : Option Str :=
  if m = 'q' then some ['~']
  else if m = 'a' then some ['&']
  else if m = 'o' then some ['@']
  else if m = 'h' then some ['%']
  else if m = 'v' then some ['+']
  else none

/-- `IRCConnection._strip_prefix`: repeatedly strip leading privilege
markers from a stored entry, leaving the bare identity. -/
def bareNick (nickname : Str) : Str := nickname.dropWhile isMarkerChar

/-- `IRCConnection._get_prefix`: the single leading privilege marker of a
stored entry, or the empty string. -/
def nickMarker (nickname : Str) : Str :=
  match nickname with
  | c :: _ => if isMarkerChar c then [c] else []
  | [] => []

/-- Python `set.add` on the channel's user set, modelled as a duplicate-free
list: a no-op when the exact display string is already present. -/
def setAdd (x : Str) (users : List Str) : List Str :=
  if users.contains x then users else users ++ [x]

/-- `IRCConnection._find_user_entry`: the stored entry whose bare
identity matches (the set's iteration order is modelled as list order;
under the roster invariant the match is unique, so the order is
immaterial). -/
def find_user_entry (users : List Str) (nickname : Str) : Option Str :=
  users.find? (fun e => bareNick e == bareNick nickname)

/-- `IRCConnection._remove_user_variants`: discard every stored entry
with the same bare identity. -/
def remove_user_variants (users : List Str) (nickname : Str) : List Str :=
  users.filter (fun e => !(bareNick e == bareNick nickname))

/-- `IRCConnection.add_user_to_channel` on one channel's user set
(a missing channel key is the empty set). -/
def add_user_to_channel (users : List Str) (nickname : Str) : List Str :=
  setAdd nickname (remove_user_variants users nickname)

/-- `IRCConnection.remove_user_from_channel` on one channel's user set. -/
def remove_user_from_channel (users : List Str) (nickname : Str) : List Str :=
  remove_user_variants users nickname

/-- `IRCConnection.rename_user` on one channel's user set: keep the old
entry's marker, re-insert under the new identity (note: the new display
string is added with plain `set.add`, without removing variants of the
new identity first). -/
def rename_user (users : List Str) (old_nick new_nick : Str) : List Str :=
  match find_user_entry users old_nick with
  | none => users
  | some existing =>
    setAdd (nickMarker existing ++ new_nick) (remove_user_variants users old_nick)

/-- `IRCConnection._pick_higher_prefix`. -/
def pick_higher (current new : Str) : Str :=
  if current = [] then new
  else if new = [] then current
  else if prefixRank current < prefixRank new then new else current

/-- `IRCConnection._update_user_prefix` on one channel's user set:
returns the updated set and the `changed` flag. -/
def update_user_mode (users : List Str) (nickname : Str) (mode : Char) (sign : Char) :
    List Str × Bool :=
  let base := bareNick nickname
  let current_entry := find_user_entry users base
  if current_entry = none ∧ sign = '-' then (users, false)
  else
    let current_marker :=
      match current_entry with
      | some e => nickMarker e
      | none => []
    match USER_MODE_PREFIXES mode with
    | none => (users, false)
    | some target_marker =>
      let new_marker :=
        if sign = '+' then pick_higher current_marker target_marker
        else if current_marker = target_marker then [] else current_marker
      let unchanged :=
        match current_entry with
        | some e => nickMarker e == new_marker && bareNick e == base
        | none => false
      if unchanged then (users, false)
      else
        let display := new_marker ++ base
        (setAdd display (remove_user_variants users base), true)

/-- `IRCConnection.MODE_PARAMS_ALWAYS`: list modes plus the privilege
modes always consume a parameter. -/
def MODE_PARAMS_ALWAYS : List Char := ['b', 'e', 'I', 'q', 'a', 'o', 'h', 'v']

/-- `IRCConnection.MODE_PARAMS_ON_SET`: value modes consume a parameter
only on grant. -/
def MODE_PARAMS_ON_SET : List Char := ['k', 'l', 'f', 'j']

/-- The `for ch in mode_str` loop of `IRCConnection._parse_mode_changes`,
threading the current sign and the unconsumed parameters; the `break` on
parameter exhaustion maps to returning the accumulated changes. -/
def parse_mode_changes (mode_str : Str) (params : List Str) (sign : Char) :
    List (Char × Char × Str) :=
  match mode_str with
  | [] => []
  | ch :: rest =>
    if ch = '+' ∨ ch = '-' then parse_mode_changes rest params ch
    else
      let needs := MODE_PARAMS_ALWAYS.contains ch
        || (MODE_PARAMS_ON_SET.contains ch && sign == '+')
      if needs then
        match params with
        | [] => []
        | p :: ps =>
          if (USER_MODE_PREFIXES ch).isSome ∧ p ≠ [] then
            (sign, ch, p) :: parse_mode_changes rest ps sign
          else parse_mode_changes rest ps sign
      else parse_mode_changes rest params sign

/-- `IRCConnection._apply_mode_changes` on one channel's user set. -/
def apply_mode_changes (users : List Str) (mode_str : Str) (params : List Str) :
    List Str × Bool :=
  (parse_mode_changes mode_str params '+').foldl
    (fun acc change =>
      let (u, ch) := update_user_mode acc.1 change.2.2 change.2.1 change.1
      (u, acc.2 || ch))
    (users, false)

/-- The roster invariant of the spec: a given bare identity appears in at
most one entry of the channel's set (and the set holds no duplicates). -/
def RosterInv (users : List Str) : Prop :=
  users.Pairwise (fun a b => bareNick a ≠ bareNick b)

instance (users : List Str) : Decidable (RosterInv users) := by
  unfold RosterInv
  infer_instance

example : update_user_mode [str "alice", str "bob"] (str "alice") 'o' '+' =
    ([str "bob", str "@alice"], true) := by decide

example : apply_mode_changes [str "A", str "B"] (str "+ov") [str "A", str "B"] =
    ([str "@A", str "+B"], true) := by decide

theorem bareNick_cons_marker {c : Char} (h : isMarkerChar c = true) (s : Str) :
    bareNick (c :: s) = bareNick s := by
  simp [bareNick, List.dropWhile, h]

theorem bareNick_idem (s : Str) : bareNick (bareNick s) = bareNick s := by
  induction s with
  | nil => rfl
  | cons c cs ih =>
    by_cases h : isMarkerChar c = true
    · rw [bareNick_cons_marker h]; exact ih
    · have h' : isMarkerChar c = false := by simpa using h
      simp [bareNick, List.dropWhile, h']

theorem nickMarker_bareNick (s : Str) : nickMarker (bareNick s) = [] := by
  induction s with
  | nil => rfl
  | cons c cs ih =>
    by_cases h : isMarkerChar c = true
    · rw [bareNick_cons_marker h]; exact ih
    · have h' : isMarkerChar c = false := by simpa using h
      simp [bareNick, List.dropWhile, h', nickMarker]

/-- The shape every stored or granted marker has: empty, or one
recognised privilege character. -/
def MarkerOK (p : Str) : Prop := p = [] ∨ ∃ c, p = [c] ∧ isMarkerChar c = true

theorem markerOK_nickMarker (s : Str) : MarkerOK (nickMarker s) := by
  cases s with
  | nil => exact Or.inl rfl
  | cons c cs =>
    unfold nickMarker
    by_cases h : isMarkerChar c = true
    · exact Or.inr ⟨c, by simp [h], h⟩
    · left; simp [h]

theorem markerOK_target {m : Char} {t : Str} (h : USER_MODE_PREFIXES m = some t) :
    MarkerOK t ∧ t ≠ [] := by
  unfold USER_MODE_PREFIXES at h
  split_ifs at h <;> injection h with h <;> subst h <;>
    exact ⟨Or.inr ⟨_, rfl, by decide⟩, by decide⟩

theorem pick_higher_cases (a b : Str) : pick_higher a b = a ∨ pick_higher a b = b := by
  unfold pick_higher
  split_ifs <;> simp

theorem markerOK_pick_higher {a b : Str} (ha : MarkerOK a) (hb : MarkerOK b) :
    MarkerOK (pick_higher a b) := by
  rcases pick_higher_cases a b with h | h <;> rw [h] <;> assumption

theorem markerOK_current (o : Option Str) :
    MarkerOK (match o with | some e => nickMarker e | none => []) := by
  cases o with
  | none => exact Or.inl rfl
  | some e => exact markerOK_nickMarker e

theorem bareNick_display {p : Str} (hp : MarkerOK p) (s : Str) :
    bareNick (p ++ s) = bareNick s := by
  rcases hp with h | ⟨c, hpc, hc⟩
  · rw [h]; rfl
  · subst hpc
    exact bareNick_cons_marker hc s

theorem nickMarker_display {p : Str} (hp : MarkerOK p) (s : Str) :
    nickMarker (p ++ bareNick s) = p := by
  rcases hp with h | ⟨c, hpc, hc⟩
  · rw [h]
    exact nickMarker_bareNick s
  · subst hpc
    simp [nickMarker, hc]

theorem rosterInv_filter (users : List Str) (p : Str → Bool) (h : RosterInv users) :
    RosterInv (users.filter p) :=
  List.Pairwise.sublist (List.filter_sublist users) h

theorem mem_remove_variants {users : List Str} {nick e : Str}
    (h : e ∈ remove_user_variants users nick) : bareNick e ≠ bareNick nick := by
  unfold remove_user_variants at h
  have h2 := (List.mem_filter.mp h).2
  simpa using h2

theorem rosterInv_append_single {users : List Str} {x : Str} (h : RosterInv users)
    (hx : ∀ e ∈ users, bareNick e ≠ bareNick x) : RosterInv (users ++ [x]) := by
  unfold RosterInv at *
  rw [List.pairwise_append]
  refine ⟨h, List.pairwise_singleton _ _, fun a ha b hb => ?_⟩
  simp only [List.mem_singleton] at hb
  subst hb
  exact hx a ha

theorem rosterInv_setAdd {users : List Str} {x : Str} (h : RosterInv users)
    (hx : ∀ e ∈ users, bareNick e ≠ bareNick x) : RosterInv (setAdd x users) := by
  unfold setAdd
  split
  · exact h
  · exact rosterInv_append_single h hx

theorem add_user_preserves_inv (users : List Str) (nick : Str) (h : RosterInv users) :
    RosterInv (add_user_to_channel users nick) :=
  rosterInv_setAdd (rosterInv_filter _ _ h) (fun _ he => mem_remove_variants he)

theorem update_user_mode_shape (users : List Str) (nick : Str) (mode sign : Char) :
    (update_user_mode users nick mode sign).1 = users ∨
    ∃ m, MarkerOK m ∧ (update_user_mode users nick mode sign).1 =
      setAdd (m ++ bareNick nick) (remove_user_variants users (bareNick nick)) := by
  unfold update_user_mode
  simp only []
  split
  · left; rfl
  · split
    · left; rfl
    · rename_i t heq
      have hm1 : MarkerOK (match find_user_entry users (bareNick nick) with
        | some e => nickMarker e
        | none => []) := markerOK_current _
      have hm2 := (markerOK_target heq).1
      split_ifs <;>
        first
        | (left; rfl)
        | (right; exact ⟨_, markerOK_pick_higher hm1 hm2, rfl⟩)
        | (right; exact ⟨_, Or.inl rfl, rfl⟩)
        | (right; exact ⟨_, hm1, rfl⟩)

theorem update_user_mode_preserves_inv (users : List Str) (nick : Str) (mode sign : Char)
    (h : RosterInv users) : RosterInv (update_user_mode users nick mode sign).1 := by
  rcases update_user_mode_shape users nick mode sign with h1 | ⟨m, hm, h1⟩
  · rw [h1]; exact h
  · rw [h1]
    apply rosterInv_setAdd (rosterInv_filter _ _ h)
    intro e he
    rw [bareNick_display hm]
    exact mem_remove_variants he

theorem foldl_update_inv (changes : List (Char × Char × Str)) :
    ∀ init : List Str × Bool, RosterInv init.1 →
      RosterInv ((changes.foldl
        (fun acc change =>
          let (u, ch) := update_user_mode acc.1 change.2.2 change.2.1 change.1
          (u, acc.2 || ch)) init)).1 := by
  induction changes with
  | nil => exact fun _ h => h
  | cons c cs ih =>
    intro init h
    simp only [List.foldl_cons]
    apply ih
    rcases hu : update_user_mode init.1 c.2.2 c.2.1 c.1 with ⟨u, ch⟩
    simp only [hu]
    have h2 := update_user_mode_preserves_inv init.1 c.2.2 c.2.1 c.1 h
    rw [hu] at h2
    exact h2

theorem apply_mode_changes_preserves_inv (users : List Str) (ms : Str) (ps : List Str)
    (h : RosterInv users) : RosterInv (apply_mode_changes users ms ps).1 := by
  unfold apply_mode_changes
  exact foldl_update_inv _ (users, false) h

theorem rename_user_preserves_inv (users : List Str) (old_nick new_nick : Str)
    (h : RosterInv users)
    (hnew : ∀ e ∈ users, bareNick e = bareNick new_nick → bareNick e = bareNick old_nick) :
    RosterInv (rename_user users old_nick new_nick) := by
  unfold rename_user
  cases hfind : find_user_entry users old_nick with
  | none => exact h
  | some existing =>
    apply rosterInv_setAdd (rosterInv_filter _ _ h)
    intro e he
    have h1 : e ∈ users := List.mem_of_mem_filter he
    have h2 := mem_remove_variants he
    rw [bareNick_display (markerOK_nickMarker existing)]
    intro hc
    exact h2 (hnew e h1 hc)

theorem find_user_entry_bare (users : List Str) (nick : Str) :
    find_user_entry users (bareNick nick) = find_user_entry users nick := by
  unfold find_user_entry
  congr 1
  funext e
  rw [bareNick_idem]

theorem find_user_entry_some {users : List Str} {nick e : Str}
    (h : find_user_entry users nick = some e) : bareNick e = bareNick nick := by
  have h2 := List.find?_some h
  simpa using h2

theorem find_append_last {l : List Str} {x nick : Str}
    (hall : ∀ e ∈ l, bareNick e ≠ bareNick nick)
    (hx : bareNick x = bareNick nick) :
    find_user_entry (l ++ [x]) nick = some x := by
  induction l with
  | nil =>
    unfold find_user_entry
    simp [List.find?, hx]
  | cons a l ih =>
    have ha : (bareNick a == bareNick nick) = false := by
      simpa using hall a (by simp)
    have ih2 := ih (fun e he => hall e (by simp [he]))
    unfold find_user_entry at ih2 ⊢
    simpa [List.find?, ha] using ih2

theorem find_setAdd_display (users : List Str) (nick : Str) {m : Str} (hm : MarkerOK m) :
    find_user_entry (setAdd (m ++ bareNick nick) (remove_user_variants users (bareNick nick)))
      nick = some (m ++ bareNick nick) := by
  have hbare : bareNick (m ++ bareNick nick) = bareNick nick := by
    rw [bareNick_display hm, bareNick_idem]
  have hall : ∀ e ∈ remove_user_variants users (bareNick nick), bareNick e ≠ bareNick nick := by
    intro e he
    have h2 := mem_remove_variants he
    rwa [bareNick_idem] at h2
  have hnotmem : ((remove_user_variants users (bareNick nick)).contains
      (m ++ bareNick nick)) = false := by
    by_contra hc
    rw [Bool.not_eq_false] at hc
    have hmem : (m ++ bareNick nick) ∈ remove_user_variants users (bareNick nick) := by
      simpa using hc
    exact hall _ hmem hbare
  unfold setAdd
  rw [hnotmem]
  simp only [Bool.false_eq_true, if_false]
  exact find_append_last hall hbare

theorem update_user_mode_found (users : List Str) {nick e t : Str} {mode : Char} (sign : Char)
    (hfind : find_user_entry users nick = some e)
    (htarget : USER_MODE_PREFIXES mode = some t) :
    update_user_mode users nick mode sign =
      (if nickMarker e = (if sign = '+' then pick_higher (nickMarker e) t
            else if nickMarker e = t then [] else nickMarker e)
       then (users, false)
       else (setAdd ((if sign = '+' then pick_higher (nickMarker e) t
              else if nickMarker e = t then [] else nickMarker e) ++ bareNick nick)
              (remove_user_variants users (bareNick nick)), true)) := by
  have hfind' : find_user_entry users (bareNick nick) = some e := by
    rw [find_user_entry_bare]
    exact hfind
  have hbare : bareNick e = bareNick nick := find_user_entry_some hfind
  unfold update_user_mode
  simp only [hfind', htarget, hbare]
  simp

theorem update_user_mode_found_plus (users : List Str) {nick e t : Str} {mode : Char}
    (hfind : find_user_entry users nick = some e)
    (htarget : USER_MODE_PREFIXES mode = some t) :
    update_user_mode users nick mode '+' =
      (if nickMarker e = pick_higher (nickMarker e) t then (users, false)
       else (setAdd (pick_higher (nickMarker e) t ++ bareNick nick)
              (remove_user_variants users (bareNick nick)), true)) := by
  rw [update_user_mode_found users '+' hfind htarget]
  simp

theorem update_user_mode_found_minus (users : List Str) {nick e t : Str} {mode : Char}
    (hfind : find_user_entry users nick = some e)
    (htarget : USER_MODE_PREFIXES mode = some t) :
    update_user_mode users nick mode '-' =
      (if nickMarker e = (if nickMarker e = t then [] else nickMarker e) then (users, false)
       else (setAdd ((if nickMarker e = t then [] else nickMarker e) ++ bareNick nick)
              (remove_user_variants users (bareNick nick)), true)) := by
  rw [update_user_mode_found users '-' hfind htarget]
  simp

/-- C4: for a roster entry `e` matching the identity and a privilege mode
letter mapping to marker `t`: on a grant the displayed marker of the
identity's entry becomes the higher-ranked of its current marker and
`t`; on a revoke the marker is cleared exactly when it equals `t`, and
when the current marker differs from `t` (in particular when it outranks
it) the whole set is returned unchanged. -/
theorem C4_mode_marker_transition (users : List Str) (nick e t : Str) (mode : Char)
    (hfind : find_user_entry users nick = some e)
    (htarget : USER_MODE_PREFIXES mode = some t) :
    ((find_user_entry (update_user_mode users nick mode '+').1 nick).map nickMarker
        = some (pick_higher (nickMarker e) t))
    ∧ (nickMarker e = t →
        (find_user_entry (update_user_mode users nick mode '-').1 nick).map nickMarker
          = some [])
    ∧ (nickMarker e ≠ t → update_user_mode users nick mode '-' = (users, false)) := by
  have hOKe := markerOK_nickMarker e
  have hOKt := (markerOK_target htarget).1
  have htne := (markerOK_target htarget).2
  refine ⟨?_, ?_, ?_⟩
  · rw [update_user_mode_found_plus users hfind htarget]
    by_cases hchurn : nickMarker e = pick_higher (nickMarker e) t
    · rw [if_pos hchurn]
      simp only [hfind]
      rw [← hchurn]
      rfl
    · rw [if_neg hchurn]
      try dsimp only
      rw [find_setAdd_display users nick (markerOK_pick_higher hOKe hOKt)]
      simp [nickMarker_display (markerOK_pick_higher hOKe hOKt)]
  · intro heq
    rw [update_user_mode_found_minus users hfind htarget, if_pos heq,
      if_neg (by simpa [heq] using htne)]
    try dsimp only
    rw [find_setAdd_display users nick (Or.inl rfl)]
    simp [nickMarker_bareNick]
  · intro hne
    rw [update_user_mode_found_minus users hfind htarget, if_neg hne, if_pos rfl]

theorem C4_mode_marker_transition_witness :
    ((find_user_entry (update_user_mode [str "@alice"] (str "alice") 'v' '+').1
        (str "alice")).map nickMarker = some (pick_higher (nickMarker (str "@alice")) ['+']))
    ∧ (nickMarker (str "@alice") = ['+'] →
        (find_user_entry (update_user_mode [str "@alice"] (str "alice") 'v' '-').1
          (str "alice")).map nickMarker = some [])
    ∧ (nickMarker (str "@alice") ≠ ['+'] →
        update_user_mode [str "@alice"] (str "alice") 'v' '-' = ([str "@alice"], false)) :=
  C4_mode_marker_transition [str "@alice"] (str "alice") (str "@alice") ['+'] 'v'
    (by decide) (by decide)

theorem mem_setAdd {l : List Str} {x e : Str} (h : e ∈ setAdd x l) : e ∈ l ∨ e = x := by
  unfold setAdd at h
  split at h
  · exact Or.inl h
  · rcases List.mem_append.mp h with h2 | h2
    · exact Or.inl h2
    · simp only [List.mem_singleton] at h2
      exact Or.inr h2

/-- C5 fails on the code as stated: `rename_user` re-inserts the old
entry's marker under the new identity with a plain `set.add`, without
removing entries that already carry the new identity.  Starting from the
invariant-satisfying roster `{"@a", "b"}`, renaming `a` to `b` produces
`{"b", "@b"}`, in which the bare identity `b` appears in two entries. -/
theorem C5_rename_counterexample :
    RosterInv [str "@a", str "b"]
    ∧ rename_user [str "@a", str "b"] (str "a") (str "b") = [str "b", str "@b"]
    ∧ ¬ RosterInv [str "b", str "@b"] := by
  refine ⟨by decide, by decide, by decide⟩

/-- C5 amended: `add`, `remove` and privilege-mode deltas preserve the
at-most-one-entry-per-bare-identity invariant, and `add` removes every
entry with the same bare identity before inserting the raw entry;
`rename` preserves the invariant only under the additional assumption
that no entry other than a variant of the old identity already carries
the new identity's bare form (which the server's nickname-uniqueness
guarantee provides in practice). -/
theorem C5_roster_invariant_amended :
    (∀ (users : List Str) (nick : Str), RosterInv users →
        RosterInv (add_user_to_channel users nick))
    ∧ (∀ (users : List Str) (nick : Str), RosterInv users →
        RosterInv (remove_user_from_channel users nick))
    ∧ (∀ (users : List Str) (ms : Str) (ps : List Str), RosterInv users →
        RosterInv (apply_mode_changes users ms ps).1)
    ∧ (∀ (users : List Str) (nick e : Str),
        e ∈ add_user_to_channel users nick → bareNick e = bareNick nick → e = nick)
    ∧ (∀ (users : List Str) (old_nick new_nick : Str), RosterInv users →
        (∀ e ∈ users, bareNick e = bareNick new_nick → bareNick e = bareNick old_nick) →
        RosterInv (rename_user users old_nick new_nick)) := by
  refine ⟨add_user_preserves_inv, ?_, apply_mode_changes_preserves_inv, ?_,
    rename_user_preserves_inv⟩
  · intro users nick h
    exact rosterInv_filter _ _ h
  · intro users nick e he hbare
    rcases mem_setAdd he with h2 | h2
    · exact absurd hbare (mem_remove_variants h2)
    · exact h2

theorem C5_roster_invariant_amended_witness :
    RosterInv (add_user_to_channel [str "@bob"] (str "alice")) :=
  C5_roster_invariant_amended.1 [str "@bob"] (str "alice") (by decide)

/-- `DCCTransferState` (`dcc_manager.py`): terminal states are
`COMPLETED`, `FAILED`, `CANCELLED`. -/
inductive DCCTransferState where
  | PENDING
  | CONNECTING
  | TRANSFERRING
  | COMPLETED
  | FAILED
  | CANCELLED
deriving DecidableEq, Repr

/-- `DCCTransferDirection`. -/
inductive DCCTransferDirection where
  | SEND
  | RECEIVE
deriving DecidableEq, Repr

/-- `DCCTransfer`: the socket, thread and timestamp fields are runtime
handles outside the shallow embedding; every field the registry logic
reads or writes is present.  Sizes and ports are Python `int`s, hence
`Int`. -/
structure DCCTransfer where
  id : Str
  server : Str
  nick : Str
  filename : Str
  filepath : Str
  filesize : Int
  direction : DCCTransferDirection
  state : DCCTransferState := DCCTransferState.PENDING
  bytes_transferred : Int := 0
  ip : Str := []
  port : Int := 0
  error_message : Str := []
  cancelled : Bool := false
deriving DecidableEq, Repr

/-- The registry slice of `DCCManager` state: the id-keyed transfer map
(in insertion order) and the `_next_id` counter. -/
structure DCCManagerState where
  transfers : List (Str × DCCTransfer)
  next_id : Nat
deriving DecidableEq, Repr

/-- Python `s.upper()` restricted to the ASCII mapping (the keyword
compared against is pure ASCII). -/
def pyUpper (s : Str) : Str := s.map Char.toUpper

/-- Python `s.split()` with no argument: split on runs of whitespace,
returning no empty tokens. -/
def splitWsAux : Str → Str → List Str
  | [], acc => if acc = [] then [] else [acc.reverse]
  | c :: cs, acc =>
    if isPySpace c then
      if acc = [] then splitWsAux cs [] else acc.reverse :: splitWsAux cs []
    else splitWsAux cs (c :: acc)

def splitWs (s : Str) : List Str := splitWsAux s []

def isDigit (c : Char) : Bool := '0' ≤ c && c ≤ '9'

def digitsToNat : Str → Nat → Nat
  | [], acc => acc
  | c :: cs, acc => digitsToNat cs (acc * 10 + (c.toNat - '0'.toNat))

def parseDigits (s : Str) : Option Nat :=
  if s ≠ [] ∧ s.all isDigit then some (digitsToNat s 0) else none

/-- Python `int(s)` on a whitespace-free token: optional sign then
decimal digits (raises `ValueError`, i.e. `none`, otherwise; the
underscore digit-separator extension is not modelled). -/
def pyInt (s : Str) : Option Int :=
  match s with
  | '+' :: rest => (parseDigits rest).map (fun n => (n : Int))
  | '-' :: rest => (parseDigits rest).map (fun n => -(n : Int))
  | _ => (parseDigits s).map (fun n => (n : Int))

def natToDec (n : Nat) : Str := Nat.toDigits 10 n

/-- `DCCManager._long_to_ip` composed with the range check that
`struct.pack("!L", ip_long)` performs: dotted-quad rendering of a 32-bit
value, `none` when packing would raise (negative or ≥ 2^32), which the
caller turns into a rejected offer. -/
def long_to_ip (n : Int) : Option Str :=
  if 0 ≤ n ∧ n < 4294967296 then
    let m := n.toNat
    some (natToDec (m / 16777216) ++ ('.' :: natToDec (m / 65536 % 256)) ++
          ('.' :: natToDec (m / 256 % 256)) ++ ('.' :: natToDec (m % 256)))
  else none

/-- Python `safe.replace("..", "_")`: left-to-right, non-overlapping. -/
def replaceDotDot : Str → Str
  | '.' :: '.' :: rest => '_' :: replaceDotDot rest
  | c :: rest => c :: replaceDotDot rest
  | [] => []

/-- The characters `DCCManager._sanitize_filename` replaces beyond path
separators. -/
def hostileChars : List Char := [':', '*', '?', '"', '<', '>', '|']

/-- The replacement stages of `DCCManager._sanitize_filename`, one per
source statement: remove null bytes, turn path separators into
underscores, collapse `".."` pairs, then replace the remaining
filesystem-hostile characters. -/
def sanitizeCore (filename : Str) : Str :=
  (replaceDotDot ((filename.filter (fun c => c ≠ Char.ofNat 0)).map
      (fun c => if c = '/' ∨ c = '\\' then '_' else c))).map
    (fun c => if hostileChars.contains c then '_' else c)

/-- `DCCManager._sanitize_filename`: the replacement stages, then the
fallback to a generic name when the result is whitespace-only
(`if not safe.strip()`), then truncation to 200 characters — in that
order. -/
def sanitize_filename (filename : Str) : Str :=
  let safe := sanitizeCore filename
  let safe4 := if pyStrip safe = [] then str "unnamed_file" else safe
  if 200 < safe4.length then safe4.take 200 else safe4

/-- `DCCManager._generate_transfer_id` for counter value `n`:
`f"dcc_{n}"`. -/
def generate_transfer_id (n : Nat) : Str := str "dcc_" ++ natToDec n

/-- The filename/argument scan of `parse_dcc_ctcp` applied to the text
after `"DCC SEND "`: a quoted filename runs to the next quote (`none`
when unterminated), an unquoted one is the first whitespace token of at
least four. -/
def parseFilenameRest (parts : Str) : Option (Str × List Str) :=
  match parts with
  | '"' :: rest =>
    if rest.contains '"' then
      some (rest.takeWhile (fun c => c ≠ '"'),
            splitWs (pyStrip ((rest.dropWhile (fun c => c ≠ '"')).tail)))
    else none
  | _ =>
    let parts_split := splitWs parts
    if parts_split.length < 4 then none
    else
      match parts_split with
      | f :: rest => some (f, rest)
      | [] => none

/-- `DCCManager.parse_dcc_ctcp(server, sender, message)`: parse a
`DCC SEND` CTCP offer, build the `DCCTransfer` in state `PENDING` with
direction `RECEIVE`, and register it under a fresh id.  `resolvePath`
abstracts the filesystem-dependent step
`_get_unique_filepath(str(Path(download_dir) / safe_filename))`;
it is applied to the sanitised filename. -/
def parse_dcc_ctcp (resolvePath : Str → Str) (st : DCCManagerState)
    (server sender message : Str) : Option DCCTransfer × DCCManagerState :=
  if ¬ (str "DCC SEND ").isPrefixOf (pyUpper message) then (none, st)
  else
    let parts := pyStrip (message.drop 9)
    match parseFilenameRest parts with
    | none => (none, st)
    | some (filename, rest) =>
      if rest.length < 3 then (none, st)
      else
        match rest with
        | a :: b :: c :: _ =>
          match pyInt a, pyInt b, pyInt c with
          | some ip_long, some port, some filesize =>
            match long_to_ip ip_long with
            | some ip =>
              let tid := generate_transfer_id st.next_id
              let transfer : DCCTransfer :=
                { id := tid, server := server, nick := sender,
                  filename := filename,
                  filepath := resolvePath (sanitize_filename filename),
                  filesize := filesize,
                  direction := DCCTransferDirection.RECEIVE,
                  ip := ip, port := port }
              (some transfer,
               { transfers := st.transfers ++ [(tid, transfer)],
                 next_id := st.next_id + 1 })
            | none => (none, st)
          | _, _, _ => (none, st)
        | _ => (none, st)

example : pyInt (str "3232235777") = some 3232235777 := by decide

example : long_to_ip 3232235777 = some (str "192.168.1.1") := by decide

example : sanitize_filename (str "../../etc/passwd") = str "____etc_passwd" := by decide

/-- `self.transfers.get(transfer_id)`. -/
def lookupTransfer (transfers : List (Str × DCCTransfer)) (tid : Str) : Option DCCTransfer :=
  (transfers.find? (fun p => p.1 == tid)).map (fun p => p.2)

/-- In-place mutation of the registry entry (Python mutates the object
stored in the dict). -/
def updateTransfer (transfers : List (Str × DCCTransfer)) (tid : Str) (t : DCCTransfer) :
    List (Str × DCCTransfer) :=
  transfers.map (fun p => if p.1 == tid then (p.1, t) else p)

/-- `DCCManager.cancel_transfer`: look the transfer up and — with no
guard on its current state — set the cancellation flag and the
`CANCELLED` state (closing the owned socket is an external effect).
Returns the updated registry and the boolean result. -/
def cancel_transfer (st : DCCManagerState) (tid : Str) : DCCManagerState × Bool :=
  match lookupTransfer st.transfers tid with
  | none => (st, false)
  | some t =>
    let updated := { t with cancelled := true, state := DCCTransferState.CANCELLED }
    ({ st with transfers := updateTransfer st.transfers tid updated }, true)

/-- `DCCManager.DCC_BLOCK_SIZE`. -/
def DCC_BLOCK_SIZE : Nat := 8192

/-- The byte-accounting loop shared verbatim by `_receive_file_thread`
and `_send_file_thread`:

    while bytes_transferred < filesize and not cancelled:
        chunk_size = min(DCC_BLOCK_SIZE, filesize - bytes_transferred)
        data = recv(chunk_size)            # or f.read(chunk_size)
        if not data: break
        bytes_transferred += len(data)

`oracle` lists the byte counts the peer (or file) would deliver on each
request; `socket.recv(n)` and `file.read(n)` both return at most `n`
bytes, so each delivery is `min avail chunk_size`.  Cancellation only
exits the loop early (a shorter oracle models it), and the 4-byte
acknowledgment write is pure I/O.  The returned trace lists the value of
`bytes_transferred` after every iteration. -/
def dcc_transfer_loop : List Nat → Nat → Nat → List Nat
  | [], _, _ => []
  | avail :: rest, filesize, bytes =>
    if bytes < filesize then
      let chunk_size := min DCC_BLOCK_SIZE (filesize - bytes)
      let len := min avail chunk_size
      if len = 0 then []
      else (bytes + len) :: dcc_transfer_loop rest filesize (bytes + len)
    else []

/-- `DCCTransfer.progress_percent`, with the division carried out over
exact rationals (Python uses floats; the bound 100 is exact in both). -/
def progress_percent (t : DCCTransfer) : ℚ :=
  if t.filesize = 0 then 0 else ((t.bytes_transferred : ℚ) / (t.filesize : ℚ)) * 100

def c6Message : Str := str "DCC SEND \"my file.txt\" 3232235777 5000 12345"

def c6Expected : DCCTransfer :=
  { id := str "dcc_1", server := str "libera", nick := str "alice",
    filename := str "my file.txt", filepath := str "my file.txt",
    filesize := 12345, direction := DCCTransferDirection.RECEIVE,
    state := DCCTransferState.PENDING, bytes_transferred := 0,
    ip := str "192.168.1.1", port := 5000, error_message := [], cancelled := false }

/-- C6: parsing `DCC SEND "my file.txt" 3232235777 5000 12345` yields a
Transfer (not `none`) with filename `my file.txt`, resolved address
`192.168.1.1`, port `5000`, declared size `12345`, in state `PENDING`
with direction `RECEIVE`, and that Transfer is registered in the
manager's registry under the fresh id (with the path-resolution
parameter instantiated to the identity, the sanitised filename is the
declared one). -/
theorem C6_parse_offer_registers :
    parse_dcc_ctcp id { transfers := [], next_id := 1 } (str "libera") (str "alice") c6Message
      = (some c6Expected,
         { transfers := [(str "dcc_1", c6Expected)], next_id := 2 }) := by
  decide

def c8Completed : DCCTransfer :=
  { id := str "dcc_1", server := str "libera", nick := str "alice",
    filename := str "f.txt", filepath := str "f.txt", filesize := 10,
    direction := DCCTransferDirection.RECEIVE,
    state := DCCTransferState.COMPLETED, bytes_transferred := 10 }

/-- C8 names a property the code does not have: `cancel_transfer` has no
state guard (`accept` and `reject` check for `PENDING`; `cancel` checks
only that the id exists), so invoking it on a Transfer already in the
terminal state `COMPLETED` succeeds and moves the registry entry to
`CANCELLED` — a terminal state is not absorbing.  The claim matches the
spec ("valid from any non-terminal state", terminal states listed as
such) and the method's own docstring ("Cancel an active DCC transfer"),
so the missing guard is a slip in the code. -/
theorem C8_cancel_moves_completed_to_cancelled :
    (cancel_transfer { transfers := [(str "dcc_1", c8Completed)], next_id := 2 }
        (str "dcc_1")).2 = true
    ∧ lookupTransfer (cancel_transfer { transfers := [(str "dcc_1", c8Completed)], next_id := 2 }
        (str "dcc_1")).1.transfers (str "dcc_1")
      = some { c8Completed with cancelled := true, state := DCCTransferState.CANCELLED }
    ∧ DCCTransferState.CANCELLED ≠ DCCTransferState.COMPLETED := by
  refine ⟨by decide, by decide, by decide⟩

/-- C10: the per-block cap `min(DCC_BLOCK_SIZE, filesize − bytes)` keeps
`bytes_transferred ≤ filesize` after every iteration of the receive and
send data-movement loops, and a transfer with positive declared size
respecting that bound reports `progress_percent ≤ 100`. -/
theorem C10_bytes_never_exceed_filesize :
    (∀ (oracle : List Nat) (filesize bytes0 : Nat), bytes0 ≤ filesize →
      ∀ v ∈ dcc_transfer_loop oracle filesize bytes0, v ≤ filesize)
    ∧ (∀ t : DCCTransfer, t.bytes_transferred ≤ t.filesize → 0 < t.filesize →
        progress_percent t ≤ 100) := by
  constructor
  · intro oracle
    induction oracle with
    | nil =>
      intro fs b0 h v hv
      simp [dcc_transfer_loop] at hv
    | cons a rest ih =>
      intro fs b0 h v hv
      unfold dcc_transfer_loop at hv
      by_cases hlt : b0 < fs
      · rw [if_pos hlt] at hv
        by_cases hz : min a (min DCC_BLOCK_SIZE (fs - b0)) = 0
        · rw [if_pos hz] at hv
          simp at hv
        · rw [if_neg hz] at hv
          have hcap : min a (min DCC_BLOCK_SIZE (fs - b0)) ≤ fs - b0 :=
            le_trans (min_le_right _ _) (min_le_right _ _)
          rcases List.mem_cons.mp hv with h1 | h1
          · omega
          · exact ih fs _ (by omega) v h1
      · rw [if_neg hlt] at hv
        simp at hv
  · intro t hb hs
    unfold progress_percent
    rw [if_neg (by omega)]
    have hs' : (0 : ℚ) < (t.filesize : ℚ) := by exact_mod_cast hs
    have hb' : ((t.bytes_transferred : ℚ)) ≤ ((t.filesize : ℚ)) := by exact_mod_cast hb
    have h1 : (t.bytes_transferred : ℚ) / (t.filesize : ℚ) ≤ 1 := (div_le_one hs').mpr hb'
    calc ((t.bytes_transferred : ℚ) / (t.filesize : ℚ)) * 100
        ≤ 1 * 100 := by
          exact mul_le_mul_of_nonneg_right h1 (by norm_num)
      _ = 100 := by norm_num

def c10Transfer : DCCTransfer :=
  { id := str "dcc_2", server := str "libera", nick := str "bob",
    filename := str "g.txt", filepath := str "g.txt", filesize := 4,
    direction := DCCTransferDirection.SEND, bytes_transferred := 3 }

theorem C10_bytes_never_exceed_filesize_witness :
    (∀ v ∈ dcc_transfer_loop [10000, 10000] 9000 0, v ≤ 9000)
    ∧ progress_percent c10Transfer ≤ 100 :=
  ⟨C10_bytes_never_exceed_filesize.1 [10000, 10000] 9000 0 (by omega),
   C10_bytes_never_exceed_filesize.2 c10Transfer (by decide) (by decide)⟩

/-- Whether the string contains two adjacent dots (the
parent-directory sequence `".."` as a substring). -/
def hasDotDot : Str → Bool
  | c :: d :: rest => (c = '.' && d = '.') || hasDotDot (d :: rest)
  | _ => false

theorem hasDotDot_cons_of_ne {c : Char} (hc : ¬ c = '.') (xs : Str) :
    hasDotDot (c :: xs) = hasDotDot xs := by
  cases xs with
  | nil => simp [hasDotDot]
  | cons d t => simp [hasDotDot, hc]

theorem hasDotDot_iff (l : Str) : hasDotDot l = true ↔ SubSeg ['.', '.'] l := by
  induction l with
  | nil =>
    simp only [hasDotDot]
    constructor
    · intro h; exact absurd h (by simp)
    · rintro ⟨pre, post, h⟩
      have hlen := congrArg List.length h
      simp [List.length_append] at hlen
      omega
  | cons c rest ih =>
    cases rest with
    | nil =>
      simp only [hasDotDot]
      constructor
      · intro h; exact absurd h (by simp)
      · rintro ⟨pre, post, h⟩
        have hlen := congrArg List.length h
        simp [List.length_append] at hlen
        omega
    | cons d t =>
      constructor
      · intro h
        simp only [hasDotDot, Bool.or_eq_true, Bool.and_eq_true, decide_eq_true_eq] at h
        rcases h with ⟨hc, hd⟩ | h
        · exact ⟨[], t, by rw [hc, hd]; rfl⟩
        · obtain ⟨pre, post, hdec⟩ := ih.mp h
          exact ⟨c :: pre, post, by simp [hdec]⟩
      · rintro ⟨pre, post, h⟩
        simp only [hasDotDot, Bool.or_eq_true, Bool.and_eq_true, decide_eq_true_eq]
        cases pre with
        | nil =>
          simp only [List.nil_append] at h
          injection h with h1 h2
          injection h2 with h2 h3
          exact Or.inl ⟨h1, h2⟩
        | cons p pre' =>
          simp only [List.cons_append] at h
          injection h with h1 h2
          exact Or.inr (ih.mpr ⟨pre', post, h2⟩)

theorem replaceDotDot_two (t : Str) :
    replaceDotDot ('.' :: '.' :: t) = '_' :: replaceDotDot t := rfl

theorem replaceDotDot_one (c : Char) : replaceDotDot [c] = [c] := by
  rw [replaceDotDot.eq_def]
  split
  · rename_i rest heq
    exact absurd (congrArg List.length heq) (by simp)
  · rename_i c' rest heq
    injection heq with h1 h2
    subst h1
    subst h2
    rfl
  · rename_i heq
    exact absurd heq (by simp)

theorem replaceDotDot_cons₂ {c d : Char} (h : ¬(c = '.' ∧ d = '.')) (t : Str) :
    replaceDotDot (c :: d :: t) = c :: replaceDotDot (d :: t) := by
  rw [replaceDotDot.eq_def]
  split
  · rename_i rest heq
    injection heq with h1 h2
    injection h2 with h2 h3
    exact absurd ⟨h1, h2⟩ h
  · rename_i c' rest heq
    injection heq with h1 h2
    subst h1
    subst h2
    rfl
  · rename_i heq
    exact absurd heq (by simp)

theorem hasDotDot_replaceDotDot (l : Str) : hasDotDot (replaceDotDot l) = false := by
  suffices H : ∀ n (l : Str), l.length ≤ n → hasDotDot (replaceDotDot l) = false from
    H l.length l le_rfl
  intro n
  induction n with
  | zero =>
    intro l hl
    have : l = [] := List.eq_nil_of_length_eq_zero (by omega)
    subst this
    rfl
  | succ n ih =>
    intro l hl
    match l with
    | [] => rfl
    | [c] =>
      rw [replaceDotDot_one]
      simp [hasDotDot]
    | c :: d :: t =>
      by_cases hcd : c = '.' ∧ d = '.'
      · obtain ⟨hc, hd⟩ := hcd
        subst hc
        subst hd
        rw [replaceDotDot_two, hasDotDot_cons_of_ne (by decide)]
        exact ih t (by simp at hl; omega)
      · rw [replaceDotDot_cons₂ hcd]
        by_cases hc : c = '.'
        · have hd : ¬ d = '.' := fun hd => hcd ⟨hc, hd⟩
          have hstep : replaceDotDot (d :: t) = d :: replaceDotDot t := by
            cases t with
            | nil => exact replaceDotDot_one d
            | cons e u => exact replaceDotDot_cons₂ (fun hh => hd hh.1) u
          have hrec : hasDotDot (replaceDotDot (d :: t)) = false :=
            ih (d :: t) (by simp at hl ⊢; omega)
          rw [hstep] at hrec ⊢
          cases hre : replaceDotDot t with
          | nil => simp [hasDotDot, hd]
          | cons e u =>
            rw [hre] at hrec
            simp only [hasDotDot, Bool.or_eq_false_iff] at hrec ⊢
            exact ⟨by simp [hd], hrec⟩
        · rw [hasDotDot_cons_of_ne hc]
          exact ih (d :: t) (by simp at hl ⊢; omega)

theorem replaceDotDot_chars {P : Char → Prop} (hP : P '_') :
    ∀ l : Str, (∀ c ∈ l, P c) → ∀ c ∈ replaceDotDot l, P c := by
  suffices H : ∀ n (l : Str), l.length ≤ n → (∀ c ∈ l, P c) → ∀ c ∈ replaceDotDot l, P c from
    fun l => H l.length l le_rfl
  intro n
  induction n with
  | zero =>
    intro l hl
    have : l = [] := List.eq_nil_of_length_eq_zero (by omega)
    subst this
    intro _ c hc
    simp [replaceDotDot] at hc
  | succ n ih =>
    intro l hl hall c hc
    match l with
    | [] => simp [replaceDotDot] at hc
    | [a] =>
      rw [replaceDotDot_one] at hc
      exact hall c hc
    | a :: b :: t =>
      by_cases hab : a = '.' ∧ b = '.'
      · obtain ⟨ha, hb⟩ := hab
        subst ha
        subst hb
        rw [replaceDotDot_two] at hc
        rcases List.mem_cons.mp hc with hc | hc
        · subst hc; exact hP
        · exact ih t (by simp at hl; omega) (fun x hx => hall x (by simp [hx])) c hc
      · rw [replaceDotDot_cons₂ hab] at hc
        rcases List.mem_cons.mp hc with hc | hc
        · subst hc; exact hall c (by simp)
        · exact ih (b :: t) (by simp at hl ⊢; omega)
            (fun x hx => hall x (by simp at hx ⊢; tauto)) c hc

theorem hasDotDot_map {f : Char → Char} (hf : ∀ c, f c = '.' → c = '.') :
    ∀ l : Str, hasDotDot l = false → hasDotDot (l.map f) = false := by
  intro l
  induction l with
  | nil => intro _; rfl
  | cons c rest ih =>
    intro h
    cases rest with
    | nil => simp [hasDotDot]
    | cons d t =>
      simp only [hasDotDot, Bool.or_eq_false_iff, Bool.and_eq_false_iff] at h
      obtain ⟨h1, h2⟩ := h
      have ih2 := ih h2
      simp only [List.map_cons] at ih2 ⊢
      simp only [hasDotDot, Bool.or_eq_false_iff]
      refine ⟨?_, ih2⟩
      simp only [Bool.and_eq_false_iff, decide_eq_false_iff_not]
      rcases h1 with h1 | h1
      · left
        intro hfc
        have hcne : ¬ c = '.' := by simpa using h1
        exact hcne (hf c hfc)
      · right
        intro hfd
        have hdne : ¬ d = '.' := by simpa using h1
        exact hdne (hf d hfd)

theorem hasDotDot_take : ∀ (l : Str), hasDotDot l = false →
    ∀ n, hasDotDot (l.take n) = false := by
  intro l
  induction l with
  | nil => intro _ n; simp [hasDotDot]
  | cons c rest ih =>
    intro h n
    cases n with
    | zero => rfl
    | succ m =>
      cases rest with
      | nil =>
        cases m <;> simp [hasDotDot]
      | cons d t =>
        simp only [hasDotDot, Bool.or_eq_false_iff] at h
        obtain ⟨h1, h2⟩ := h
        have ih2 := ih h2 m
        cases m with
        | zero => simp [hasDotDot]
        | succ k =>
          simp only [List.take] at ih2 ⊢
          simp only [hasDotDot, Bool.or_eq_false_iff]
          exact ⟨h1, ih2⟩

theorem sanitizeCore_chars (fn : Str) :
    ∀ c ∈ sanitizeCore fn, c ≠ Char.ofNat 0 ∧ c ≠ '/' ∧ c ≠ '\\' := by
  have hstage1 : ∀ x ∈ (fn.filter (fun c => c ≠ Char.ofNat 0)).map
      (fun c => if c = '/' ∨ c = '\\' then '_' else c),
      x ≠ Char.ofNat 0 ∧ x ≠ '/' ∧ x ≠ '\\' := by
    intro x hx
    rcases List.mem_map.mp hx with ⟨b, hb, rfl⟩
    have hbn : ¬ b = Char.ofNat 0 := by
      have h2 := (List.mem_filter.mp hb).2
      simpa using h2
    by_cases hbs : b = '/' ∨ b = '\\'
    · rw [if_pos hbs]
      exact ⟨by decide, by decide, by decide⟩
    · rw [if_neg hbs]
      push_neg at hbs
      exact ⟨hbn, hbs.1, hbs.2⟩
  have hstage2 := replaceDotDot_chars
    (P := fun x => x ≠ Char.ofNat 0 ∧ x ≠ '/' ∧ x ≠ '\\') (by decide) _ hstage1
  intro c hc
  unfold sanitizeCore at hc
  rcases List.mem_map.mp hc with ⟨a, ha, rfl⟩
  by_cases hH : hostileChars.contains a = true
  · rw [if_pos hH]
    exact ⟨by decide, by decide, by decide⟩
  · rw [if_neg hH]
    exact hstage2 a ha

theorem sanitizeCore_noDotDot (fn : Str) : hasDotDot (sanitizeCore fn) = false := by
  unfold sanitizeCore
  apply hasDotDot_map
  · intro c hc
    by_cases hH : hostileChars.contains c = true
    · rw [if_pos hH] at hc
      exact absurd hc (by decide)
    · rwa [if_neg hH] at hc
  · exact hasDotDot_replaceDotDot _

/-- C7 fails on the code in one detail: the whitespace-only fallback
(`if not safe.strip()`) runs before the 200-character truncation, so an
input of 201 spaces followed by `a` sanitises to 200 spaces — non-empty,
but whitespace-only, contradicting the claim's "non-empty
(non-whitespace-only)" clause. -/
theorem C7_counterexample :
    sanitize_filename (List.replicate 201 ' ' ++ ['a']) = List.replicate 200 ' '
    ∧ pyStrip (sanitize_filename (List.replicate 201 ' ' ++ ['a'])) = [] := by
  refine ⟨by decide, by decide⟩

/-- C7 amended: for every input the sanitised filename contains no null
byte, no forward or back slash and no `".."` substring, is non-empty
(the generic-name fallback fires when the replacement stages leave only
whitespace), and has at most 200 characters.  It can however consist
entirely of whitespace when the truncation — applied after the
emptiness check — cuts away every non-whitespace character. -/
theorem C7_sanitize_filename_props (fn : Str) :
    (∀ c ∈ sanitize_filename fn, c ≠ Char.ofNat 0 ∧ c ≠ '/' ∧ c ≠ '\\')
    ∧ ¬ SubSeg ['.', '.'] (sanitize_filename fn)
    ∧ sanitize_filename fn ≠ []
    ∧ (sanitize_filename fn).length ≤ 200 := by
  have hchars := sanitizeCore_chars fn
  have hdd := sanitizeCore_noDotDot fn
  have hfb_chars : ∀ c ∈ str "unnamed_file", c ≠ Char.ofNat 0 ∧ c ≠ '/' ∧ c ≠ '\\' := by
    decide
  unfold sanitize_filename
  set s := sanitizeCore fn with hs
  dsimp only
  by_cases hempty : pyStrip s = []
  · rw [if_pos hempty, if_neg (by decide)]
    refine ⟨hfb_chars, ?_, by decide, by decide⟩
    intro hsub
    rw [← hasDotDot_iff] at hsub
    exact absurd hsub (by decide)
  · rw [if_neg hempty]
    have hne : s ≠ [] := by
      intro h0
      rw [h0] at hempty
      exact hempty rfl
    have hnodd : ¬ SubSeg ['.', '.'] s := by
      intro hsub
      rw [← hasDotDot_iff, hdd] at hsub
      exact absurd hsub (by decide)
    by_cases hlen : 200 < s.length
    · rw [if_pos hlen]
      refine ⟨?_, ?_, ?_, ?_⟩
      · intro c hc
        exact hchars c (List.take_subset _ _ hc)
      · intro hsub
        rw [← hasDotDot_iff, hasDotDot_take s hdd 200] at hsub
        exact absurd hsub (by decide)
      · intro h0
        have hlt := congrArg List.length h0
        rw [List.length_take, List.length_nil] at hlt
        omega
      · rw [List.length_take]
        omega
    · rw [if_neg hlen]
      exact ⟨hchars, hnodd, hne, by omega⟩

/-- Python `s[:k]` on a character string with an arbitrary `int` index:
a non-negative index clamps to the length, a negative one counts from
the end (`s[:-j]` drops the last `j` characters). -/
def pySliceTo (k : Int) (s : Str) : Str :=
  if 0 ≤ k then s.take k.toNat else s.take (s.length - (-k).toNat)

/-- The number of bytes Python `remaining_bytes[:k]` keeps out of an
`n`-byte string, for an arbitrary `int` slice index `k`. -/
def pyByteCount (k : Int) (n : Nat) : Nat :=
  if 0 ≤ k then min k.toNat n else n - (-k).toNat

/-- `chunk_bytes.decode('utf-8')` applied to the first `k` bytes of the
(valid) encoding of `s`: succeeds exactly when `k` lands on a code-point
boundary, returning those characters; `UnicodeDecodeError` is `none`. -/
def decodeUpto (k : Nat) (s : Str) : Option Str :=
  if utf8Len (takeUtf8 k s) = k then some (takeUtf8 k s) else none

/-- One iteration of the chunk selection of `_split_message` with the
byte budget as an arbitrary Python `int`.  For a positive budget a
failed decode backs up to the previous code-point boundary
(`while split_point > 0`), reproducing `chunkOf`; for a budget ≤ 0 the
back-up loop never runs and the `remaining[:max_length // 4]` fallback
fires instead.  `//` is Python floor division, i.e. `Int.fdiv`, and the
`rfind` result `-1` takes part in the `last_space > max_length // 2`
comparison. -/
def chunkOfInt (remaining : Str) (maxLength : Int) : Str :=
  let chunk :=
    match decodeUpto (pyByteCount maxLength (utf8Len remaining)) remaining with
    | some c => c
    | none =>
      if 0 < maxLength then
        takeUtf8 (pyByteCount maxLength (utf8Len remaining)) remaining
      else
        pySliceTo (Int.fdiv maxLength 4) remaining
  let last_space : Int :=
    match rfindSpace chunk with
    | some i => (i : Int)
    | none => -1
  if Int.fdiv maxLength 2 < last_space then pySliceTo last_space chunk else chunk

/-- The `while remaining:` loop of `_split_message` over an arbitrary
`int` budget, with explicit fuel as in `splitLoop`. -/
def splitLoopInt : Nat → Str → Int → Option (List Str)
  | 0, _, _ => none
  | fuel + 1, remaining, maxLength =>
    if remaining = [] then some []
    else if (utf8Len remaining : Int) ≤ maxLength then some [remaining]
    else
      let chunk := chunkOfInt remaining maxLength
      match splitLoopInt fuel (pyLstrip (remaining.drop chunk.length)) maxLength with
      | some rest => some (chunk :: rest)
      | none => none

/-- `IRCConnection._split_message(message, max_length)` with the budget
as the Python `int` it is — `_calculate_max_message_length` can return a
negative value, and Python's negative slice semantics then still
produce chunks.  Agrees with `split_message` on non-negative budgets
(`split_message_py_ofNat`). -/
def split_message_py (message : Str) (maxLength : Int) : Option (List Str) :=
  if (utf8Len message : Int) ≤ maxLength then some [message]
  else splitLoopInt (message.length + 1) message maxLength

theorem takeUtf8_zero (s : Str) : takeUtf8 0 s = [] := by
  cases s with
  | nil => rfl
  | cons c cs =>
    have hpos := c.utf8Size_pos
    simp only [takeUtf8]
    rw [if_neg (by omega)]

theorem takeUtf8_of_all (k : Nat) (s : Str) (h : utf8Len s ≤ k) : takeUtf8 k s = s := by
  induction s generalizing k with
  | nil => rfl
  | cons c cs ih =>
    simp only [utf8Len, List.map_cons, List.sum_cons] at h
    have hc : c.utf8Size ≤ k := by omega
    simp only [takeUtf8, if_pos hc]
    congr 1
    exact ih (k - c.utf8Size) (by unfold utf8Len; omega)

theorem takeUtf8_min (m : Nat) (s : Str) : takeUtf8 (min m (utf8Len s)) s = takeUtf8 m s := by
  rcases le_total m (utf8Len s) with h | h
  · rw [min_eq_left h]
  · rw [min_eq_right h, takeUtf8_of_all _ _ le_rfl, takeUtf8_of_all _ _ h]

theorem chunkOfInt_ofNat (r : Str) (m : Nat) : chunkOfInt r (m : Int) = chunkOf r m := by
  have hdiv2 : Int.fdiv (m : Int) 2 = ((m / 2 : Nat) : Int) := by
    cases m <;> rfl
  have hbyte : pyByteCount (m : Int) (utf8Len r) = min m (utf8Len r) := by
    unfold pyByteCount
    rw [if_pos (by exact_mod_cast Nat.zero_le m), Int.toNat_natCast]
  have hchunk : (match decodeUpto (pyByteCount (m : Int) (utf8Len r)) r with
      | some c => c
      | none =>
        if 0 < (m : Int) then takeUtf8 (pyByteCount (m : Int) (utf8Len r)) r
        else pySliceTo (Int.fdiv (m : Int) 4) r) = takeUtf8 m r := by
    rw [hbyte]
    unfold decodeUpto
    by_cases hcond : utf8Len (takeUtf8 (min m (utf8Len r)) r) = min m (utf8Len r)
    · rw [if_pos hcond]
      exact takeUtf8_min m r
    · rw [if_neg hcond]
      by_cases hm : 0 < m
      · rw [if_pos (by exact_mod_cast hm)]
        exact takeUtf8_min m r
      · exfalso
        have hm0 : m = 0 := by omega
        subst hm0
        apply hcond
        rw [Nat.zero_min, takeUtf8_zero]
        rfl
  unfold chunkOfInt chunkOf
  simp only [hchunk]
  cases hfind : rfindSpace (takeUtf8 m r) with
  | none =>
    simp only [hfind]
    rw [hdiv2, if_neg (by omega)]
  | some i =>
    simp only [hfind, hdiv2]
    by_cases hcond : m / 2 < i
    · rw [if_pos (by exact_mod_cast hcond), if_pos hcond]
      unfold pySliceTo
      rw [if_pos (Int.natCast_nonneg i)]
      rw [Int.toNat_natCast]
    · rw [if_neg (by exact_mod_cast hcond), if_neg hcond]

theorem splitLoopInt_ofNat (fuel : Nat) : ∀ (r : Str) (m : Nat),
    splitLoopInt fuel r (m : Int) = splitLoop fuel r m := by
  induction fuel with
  | zero => intro r m; rfl
  | succ n ih =>
    intro r m
    by_cases hnil : r = []
    · simp [splitLoopInt, splitLoop, hnil]
    · by_cases hle : utf8Len r ≤ m
      · have hle' : (utf8Len r : Int) ≤ (m : Int) := by exact_mod_cast hle
        rw [splitLoopInt, splitLoop, if_neg hnil, if_neg hnil, if_pos hle', if_pos hle]
      · have hle' : ¬ (utf8Len r : Int) ≤ (m : Int) := by exact_mod_cast hle
        rw [splitLoopInt, splitLoop, if_neg hnil, if_neg hnil, if_neg hle', if_neg hle]
        simp only [chunkOfInt_ofNat, ih]

theorem split_message_py_ofNat (M : Str) (m : Nat) :
    split_message_py M (m : Int) = split_message M m := by
  unfold split_message_py split_message
  by_cases hle : utf8Len M ≤ m
  · rw [if_pos (by exact_mod_cast hle : (utf8Len M : Int) ≤ (m : Int)), if_pos hle]
  · rw [if_neg (by exact_mod_cast hle : ¬ (utf8Len M : Int) ≤ (m : Int)), if_neg hle,
      splitLoopInt_ofNat]

/-- C1 fails on the code as stated: `_calculate_max_message_length`
returns a negative bound for a 401-byte target, and at bound −1 the
byte slice `remaining_bytes[:-1]` keeps all but the last byte, so
`_split_message("aaaa ", -1)` terminates and returns `["aaaa"]` — a
4-byte chunk against a bound of −1, violating the claimed byte-length
bound for that message and target. -/
theorem C1_negative_bound_counterexample :
    calculate_max_message_length (List.replicate 401 'a') 0 = -1
    ∧ split_message_py (str "aaaa ") (calculate_max_message_length (List.replicate 401 'a') 0)
        = some [str "aaaa"]
    ∧ ¬ ((utf8Len (str "aaaa") : Int) ≤
          calculate_max_message_length (List.replicate 401 'a') 0) := by
  refine ⟨by decide, by decide, by decide⟩

/-- C1 amended: restricted to targets whose computed bound is
non-negative (the counterexample shows the restriction is forced),
every chunk of `_split_message(M, _calculate_max_message_length(T, e))`
has UTF-8 byte length at most the computed bound, every chunk is a
contiguous run of whole code points of `M` (no chunk boundary falls
inside a multi-byte code point), and a message already within the bound
is returned as the single-element list `[M]`. -/
theorem C1_chunks_fit_nonneg_bound (M target : Str) (extra : Int) (cs : List Str)
    (hpos : 0 ≤ calculate_max_message_length target extra)
    (h : split_message_py M (calculate_max_message_length target extra) = some cs) :
    (∀ c ∈ cs, (utf8Len c : Int) ≤ calculate_max_message_length target extra ∧ SubSeg c M)
    ∧ ((utf8Len M : Int) ≤ calculate_max_message_length target extra → cs = [M]) := by
  obtain ⟨m, hm⟩ := Int.eq_ofNat_of_zero_le hpos
  rw [hm] at h ⊢
  rw [split_message_py_ofNat] at h
  unfold split_message at h
  by_cases hle : utf8Len M ≤ m
  · rw [if_pos hle] at h
    injection h with h
    subst h
    refine ⟨?_, fun _ => rfl⟩
    intro c hc
    simp only [List.mem_singleton] at hc
    subst hc
    exact ⟨by exact_mod_cast hle, [], [], by simp⟩
  · rw [if_neg hle] at h
    refine ⟨?_, ?_⟩
    · intro c hc
      obtain ⟨h1, h2⟩ := splitLoop_sound m _ M cs h c hc
      exact ⟨by exact_mod_cast h1, h2⟩
    · intro hle2
      exact absurd (by exact_mod_cast hle2 : utf8Len M ≤ m) hle

theorem C1_chunks_fit_nonneg_bound_witness :
    (∀ c ∈ [str "hello"], (utf8Len c : Int) ≤ calculate_max_message_length (str "#chan") 0
      ∧ SubSeg c (str "hello"))
    ∧ ((utf8Len (str "hello") : Int) ≤ calculate_max_message_length (str "#chan") 0 →
        [str "hello"] = [str "hello"]) :=
  C1_chunks_fit_nonneg_bound (str "hello") (str "#chan") 0 [str "hello"]
    (by decide) (by decide)
